import Mathlib

/- Shallow embedding of src/src/runner/display_list.js.

The module body constructs a `DisplayList` constructor (a children array plus
an owner) whose prototype defines exactly three methods: `add`, `clear` and
`remove` (lines 36-126), a `methods` mixin object (lines 150-212), and then
executes its first `return` statement (lines 213-230).  Every statement after
that return (the sparse-capable mixin object literal, lines 233-529) is
unreachable at runtime; it is still modelled below where a claim is about it.

A `World` carries the mutable per-node fields (`parent`, `next`, `stage`,
registry membership) together with the per-owner children arrays.  JS details
that matter are modelled explicitly: `insertAt >>> 0` as truncation toward
zero followed by reduction mod 2^32, `Array.prototype.indexOf` as first
occurrence or -1, `splice` as take/append/drop, `splice(i, 1)` as eraseIdx.
Numbers passed as insertion indices are modelled as rationals (the claims
exercise negative and fractional indices; the operations involved are exact
on rationals). -/

namespace Bonsai

abbrev NodeId := Nat

/-- The mutable state the display-list module operates on: per-node `parent`,
`next` and `stage` references (display_object fields), per-owner children
arrays (`this.children` of each owner's display list), and the registry's
attached-objects membership. -/
@[ext]
structure World where
  parent : NodeId → Option NodeId
  next : NodeId → Option NodeId
  stage : NodeId → Option Nat
  children : NodeId → List NodeId
  registry : NodeId → Bool

/-- Assignment `n.next = v`. -/
def setNext (w : World) (n : NodeId) (v : Option NodeId) : World :=
  { w with next := fun m => if m = n then v else w.next m }

/-- Assignment `n.parent = v`. -/
def setParent (w : World) (n : NodeId) (v : Option NodeId) : World :=
  { w with parent := fun m => if m = n then v else w.parent m }

/-- Modelled from the spec: `child._activate(stage)` is inherited from
`DisplayObject.prototype` in display_object.js, which is not part of this
snapshot (only display_list.js is).  Per spec sections 3 (staged consistency)
and 4.2, activation stores the staged reference on the node and the
registry's attached-objects map holds exactly the staged ids, so activating
with a present stage registers the node's id and activating with an absent
stage leaves it unstaged and unregistered. -/
def activateNode (w : World) (n : NodeId) (st : Option Nat) : World :=
  { w with
      stage := fun m => if m = n then st else w.stage m,
      registry := fun m => if m = n then st.isSome else w.registry m }

/-- Modelled from the spec: `child._deactivate()` is inherited from
`DisplayObject.prototype` in display_object.js, which is not part of this
snapshot.  Per spec sections 3 and 4.2, deactivation clears the staged
reference and removes the id from the registry's attached-objects map. -/
def deactivateNode (w : World) (n : NodeId) : World :=
  { w with
      stage := fun m => if m = n then none else w.stage m,
      registry := fun m => if m = n then false else w.registry m }

@[simp] lemma setNext_parent (w : World) (n : NodeId) (v : Option NodeId) :
    (setNext w n v).parent = w.parent := rfl

@[simp] lemma setNext_children (w : World) (n : NodeId) (v : Option NodeId) :
    (setNext w n v).children = w.children := rfl

@[simp] lemma setNext_stage (w : World) (n : NodeId) (v : Option NodeId) :
    (setNext w n v).stage = w.stage := rfl

@[simp] lemma setNext_registry (w : World) (n : NodeId) (v : Option NodeId) :
    (setNext w n v).registry = w.registry := rfl

@[simp] lemma setNext_next (w : World) (n m : NodeId) (v : Option NodeId) :
    (setNext w n v).next m = if m = n then v else w.next m := rfl

@[simp] lemma setParent_next (w : World) (n : NodeId) (v : Option NodeId) :
    (setParent w n v).next = w.next := rfl

@[simp] lemma setParent_children (w : World) (n : NodeId) (v : Option NodeId) :
    (setParent w n v).children = w.children := rfl

@[simp] lemma setParent_stage (w : World) (n : NodeId) (v : Option NodeId) :
    (setParent w n v).stage = w.stage := rfl

@[simp] lemma setParent_registry (w : World) (n : NodeId) (v : Option NodeId) :
    (setParent w n v).registry = w.registry := rfl

@[simp] lemma setParent_parent (w : World) (n m : NodeId) (v : Option NodeId) :
    (setParent w n v).parent m = if m = n then v else w.parent m := rfl

@[simp] lemma activateNode_parent (w : World) (n : NodeId) (st : Option Nat) :
    (activateNode w n st).parent = w.parent := rfl

@[simp] lemma activateNode_next (w : World) (n : NodeId) (st : Option Nat) :
    (activateNode w n st).next = w.next := rfl

@[simp] lemma activateNode_children (w : World) (n : NodeId) (st : Option Nat) :
    (activateNode w n st).children = w.children := rfl

@[simp] lemma activateNode_stage (w : World) (n m : NodeId) (st : Option Nat) :
    (activateNode w n st).stage m = if m = n then st else w.stage m := rfl

@[simp] lemma activateNode_registry (w : World) (n m : NodeId) (st : Option Nat) :
    (activateNode w n st).registry m = if m = n then st.isSome else w.registry m := rfl

@[simp] lemma deactivateNode_parent (w : World) (n : NodeId) :
    (deactivateNode w n).parent = w.parent := rfl

@[simp] lemma deactivateNode_next (w : World) (n : NodeId) :
    (deactivateNode w n).next = w.next := rfl

@[simp] lemma deactivateNode_children (w : World) (n : NodeId) :
    (deactivateNode w n).children = w.children := rfl

@[simp] lemma deactivateNode_stage (w : World) (n m : NodeId) :
    (deactivateNode w n).stage m = if m = n then none else w.stage m := rfl

@[simp] lemma deactivateNode_registry (w : World) (n m : NodeId) :
    (deactivateNode w n).registry m = if m = n then false else w.registry m := rfl

/-- `getAncestors` (display_list.js lines 9-17): the do-while loop pushes the
argument and then every node reachable through `parent` links.  The JS loop
has no bound (it would diverge on a cyclic parent chain), so the model takes
explicit fuel; theorems quantify over the fuel and the membership tests used
by `add` are stated against the very list this function produces. -/
def getAncestors (w : World) : NodeId → Nat → List NodeId
  | _, 0 => []
  | x, fuel + 1 =>
    x :: (match w.parent x with
          | none => []
          | some p => getAncestors w p fuel)

/-- JS ToIntegerOrInfinity on a rational: truncation toward zero.  On a `Rat`
in lowest terms this is `num / den` with `Int.div` (which rounds toward
zero). -/
def jsTrunc (q : ℚ) : Int := q.num.tdiv (q.den : Int)

/-- `insertAt >>> 0` (display_list.js line 70): ToUint32, i.e. truncate
toward zero and reduce modulo 2^32 into `[0, 2^32)`. -/
def toUint32 (q : ℚ) : Nat := ((jsTrunc q) % (2 ^ 32 : Int)).toNat

/-- Lines 69-70: `insertAt = arguments.length > 1 ? min(insertAt >>> 0,
numExistingChildren) : numExistingChildren`.  `none` models the call without
the second argument. -/
def resolveIdx (idx : Option ℚ) (len : Nat) : Nat :=
  match idx with
  | none => len
  | some q => min (toUint32 q) len

/-- The first argument of `add`: a single DisplayObject or an array of them
(line 53 dispatches on `isArray(child)`). -/
inductive AddArg
  | single (c : NodeId)
  | arr (cs : List NodeId)

/-- `Array.prototype.indexOf`: index of the first occurrence, with `none`
standing for -1. -/
def indexOfFirst (l : List NodeId) (d : NodeId) : Option Nat :=
  match l with
  | [] => none
  | c :: rest => if c = d then some 0 else (indexOfFirst rest d).map (· + 1)

/-- `DisplayList.prototype.remove` (lines 114-125), acting on owner `o`'s
display list: `indexOf` is first occurrence or -1; on a hit the predecessor's
`next` (if any) is rewired to the removed node's current `next`, then the
node's `next` and `parent` are cleared, it is deactivated, and
`splice(childIndex, 1)` erases it from the children array. -/
def remove (w : World) (o : NodeId) (d : NodeId) : World :=
  let children := w.children o
  match indexOfFirst children d with
  | none => w
  | some childIndex =>
    let w1 :=
      if childIndex > 0 then
        match children[childIndex - 1]? with
        | some prev => setNext w prev (w.next d)
        | none => w
      else w
    let w2 := setNext w1 d none
    let w3 := setParent w2 d none
    let w4 := deactivateNode w3 d
    { w4 with
        children := fun m => if m = o then children.eraseIdx childIndex else w4.children m }

/-- `DisplayList.prototype.clear` (lines 100-107): the loop deactivates each
child and clears its `next` and `parent` (the loop body mutates no array, so
it runs over the initial, dense children array), then `children.length = 0`
empties the container. -/
def clear (w : World) (o : NodeId) : World :=
  let children := w.children o
  let w1 := children.foldl
    (fun w c => setNext (setParent (deactivateNode w c) c none) c none) w
  { w1 with children := fun m => if m = o then [] else w1.children m }

/-- The loop of `add` (lines 82-93), running `k` more iterations with loop
variable `i` and the JS variable `nextChild` carried as `nc` (it is read with
`nextChild || children[i]`, and a fresh `children[i + 1]` is read after the
possible same- or cross-list `remove`).  The JS loop runs exactly
`numNewChildren` iterations, which is the structural fuel `k`.  When
`children[i]` is out of range and `nc` is empty the JS would dereference
undefined; no state in this development reaches that case and the model stops
there. -/
def addLoop (o : NodeId) : World → Nat → Option NodeId → Nat → World
  | w, _, _, 0 => w
  | w, i, nc, k + 1 =>
    let child? := match nc with
      | some c => some c
      | none => (w.children o)[i]?
    match child? with
    | none => w
    | some child =>
      let w1 := match w.parent child with
        | some pp => remove w pp child
        | none => w
      let nextChild := (w1.children o)[i + 1]?
      let w2 := setNext w1 child nextChild
      let w3 := setParent w2 child (some o)
      let w4 := activateNode w3 child (w3.stage o)
      addLoop o w4 (i + 1) nextChild k

/-- `DisplayList.prototype.add` (lines 52-95) on owner `o`'s display list.
The three early returns (lines 59-65): a single child that appears among the
owner's ancestors, an array with some element among the ancestors, or zero
new children.  Then the new children are spliced in at the resolved index,
the predecessor's `next` is pointed at the first inserted node (lines 78-80),
and the loop runs once per new child. -/
def add (w : World) (fuel : Nat) (o : NodeId) (arg : AddArg) (idx : Option ℚ) : World :=
  let ancestors := getAncestors w o fuel
  let guardHit : Bool := match arg with
    | .single c => ancestors.contains c
    | .arr cs => cs.any (fun c => ancestors.contains c)
  let numNewChildren := match arg with
    | .single _ => 1
    | .arr cs => cs.length
  if guardHit then w
  else if numNewChildren = 0 then w
  else
    let children := w.children o
    let insertAt := resolveIdx idx children.length
    let newChildren := match arg with
      | .single c => [c]
      | .arr cs => cs
    let newList := children.take insertAt ++ newChildren ++ children.drop insertAt
    let w1 := { w with children := fun m => if m = o then newList else w.children m }
    let w2 :=
      if insertAt > 0 then
        match newList[insertAt - 1]?, newChildren.head? with
        | some prev, some first => setNext w1 prev (some first)
        | _, _ => w1
      else w1
    addLoop o w2 insertAt none numNewChildren

/-- Sibling links mirror index order: each child's `next` is the child at the
following index (and the last child's `next` is empty).  This is the "by
index and by following next links agree" reading of the spec. -/
def linksConsistent (w : World) (o : NodeId) : Bool :=
  (List.range (w.children o).length).all fun i =>
    match (w.children o)[i]? with
    | none => true
    | some c => w.next c == (w.children o)[i + 1]?

/-- Calling `remove` on each element of `l` in turn (sequential removal). -/
def removeEach (w : World) (o : NodeId) (l : List NodeId) : World :=
  l.foldl (fun w c => remove w o c) w

/-- The common final state of `clear` and of removing every child one by
one: every child of `o` has `parent`, `next` and `stage` cleared and is out
of the registry, `o`'s children array is empty, everything else untouched. -/
def clearedWorld (w : World) (o : NodeId) : World :=
  { parent := fun n => if n ∈ w.children o then none else w.parent n,
    next := fun n => if n ∈ w.children o then none else w.next n,
    stage := fun n => if n ∈ w.children o then none else w.stage n,
    children := fun m => if m = o then [] else w.children m,
    registry := fun n => if n ∈ w.children o then false else w.registry n }

/-- The empty world: every node detached, every children array empty. -/
def w0 : World :=
  { parent := fun _ => none, next := fun _ => none, stage := fun _ => none,
    children := fun _ => [], registry := fun _ => false }

/-- Owner 0 with children [1, 2, 3], consistent sibling links, everything
detached from any stage. -/
def wABC : World :=
  { parent := fun n => if n = 1 ∨ n = 2 ∨ n = 3 then some 0 else none,
    next := fun n => if n = 1 then some 2 else if n = 2 then some 3 else none,
    stage := fun _ => none,
    children := fun n => if n = 0 then [1, 2, 3] else [],
    registry := fun _ => false }

/-- Owner 0 with children [1, 2] (used by the reinsertion counterexample). -/
def wAB : World :=
  { parent := fun n => if n = 1 ∨ n = 2 then some 0 else none,
    next := fun n => if n = 1 then some 2 else none,
    stage := fun _ => none,
    children := fun n => if n = 0 then [1, 2] else [],
    registry := fun _ => false }

/-- Owner 0 with the single child 1, owner 2 with no children (used by the
reparenting witness). -/
def wTwo : World :=
  { parent := fun n => if n = 1 then some 0 else none,
    next := fun _ => none,
    stage := fun _ => none,
    children := fun n => if n = 0 then [1] else [],
    registry := fun _ => false }

/-- Owner 0 with the single child 1 (used by the index counterexample). -/
def wA : World :=
  { parent := fun n => if n = 1 then some 0 else none,
    next := fun _ => none,
    stage := fun _ => none,
    children := fun n => if n = 0 then [1] else [],
    registry := fun _ => false }

/-- A JavaScript exception: a thrown value (the source throws the plain
string 'implement me') or a TypeError from calling a missing method. -/
inductive JsError
  | thrown (msg : String)
  | typeError (msg : String)
deriving DecidableEq

/-- The methods defined on `DisplayList.prototype` (lines 36-126): exactly
`add`, `clear` and `remove`. -/
inductive DLMethod
  | add
  | clear
  | remove
deriving DecidableEq

/-- JS property lookup on `DisplayList.prototype`; `none` models an absent
property, whose invocation raises a TypeError. -/
def lookupDisplayListMethod : String → Option DLMethod
  | "add" => some DLMethod.add
  | "clear" => some DLMethod.clear
  | "remove" => some DLMethod.remove
  | _ => none

/-- `methods.addChild` (lines 175-178): delegates to `displayList.add` and
returns the owner. -/
def methodsAddChild (w : World) (fuel : Nat) (o : NodeId) (child : AddArg)
    (index : Option ℚ) : World × NodeId :=
  (add w fuel o child index, o)

/-- `methods.children` with an argument (lines 185-193): clears the display
list, appends the new children, returns the owner. -/
def methodsChildrenSet (w : World) (fuel : Nat) (o : NodeId) (newChildren : AddArg) :
    World × NodeId :=
  (add (clear w o) fuel o newChildren none, o)

/-- `methods.children` without an argument (line 192): returns the children
array. -/
def methodsChildrenGet (w : World) (o : NodeId) : List NodeId :=
  w.children o

/-- `methods.clear` (lines 198-201): delegates and returns the owner. -/
def methodsClear (w : World) (o : NodeId) : World × NodeId :=
  (clear w o, o)

/-- `methods.getComputed` (lines 202-204): `throw 'implement me'`, whatever
the key. -/
def methodsGetComputed (_key : String) : Except JsError ℚ :=
  Except.error (JsError.thrown "implement me")

/-- `methods.getIndexOfChild` (lines 205-207): evaluates
`this.displayList.getIndexOfChild()` — but `DisplayList.prototype` defines
no `getIndexOfChild` (and the child argument is not even forwarded), so the
lookup yields undefined and the call raises a TypeError.  The `some` arm
records what a successful lookup would return; it is never taken. -/
def methodsGetIndexOfChild (_w : World) (_o : NodeId) : Except JsError Int :=
  match lookupDisplayListMethod "getIndexOfChild" with
  | none => Except.error (JsError.typeError
      "this.displayList.getIndexOfChild is not a function")
  | some _ => Except.ok 0

/-- `methods.removeChild` (lines 208-211): evaluates
`this.displayList.removeChild(child)` — but `DisplayList.prototype` defines
`remove`, not `removeChild`, so the lookup yields undefined and the call
raises a TypeError.  The `some DLMethod.remove` arm records what the
delegation would do if the name resolved; it is never taken. -/
def methodsRemoveChild (w : World) (o : NodeId) (child : NodeId) :
    Except JsError (World × NodeId) :=
  match lookupDisplayListMethod "removeChild" with
  | none => Except.error (JsError.typeError
      "this.displayList.removeChild is not a function")
  | some DLMethod.remove => Except.ok (remove w o child, o)
  | some _ => Except.ok (w, o)

/-- An edge key accepted by the sparse mixin's `getComputed` (line 402). -/
inductive EdgeKey
  | top
  | right
  | bottom
  | left
deriving DecidableEq

/-- A child as seen by the sparse mixin's `getComputed`: its `x`/`y`
attributes and the values its own recursive `getComputed(key)` returns for
the four edge keys, supplied as data (child sizing is the child's own
concern, per the spec's node capability surface). -/
structure BBoxChild where
  x : ℚ
  y : ℚ
  top : ℚ
  right : ℚ
  bottom : ℚ
  left : ℚ

/-- Line 403: `top`/`bottom` read the `y` attribute, `right`/`left` read
`x`. -/
def edgeAttr : EdgeKey → BBoxChild → ℚ
  | EdgeKey.top, ch => ch.y
  | EdgeKey.bottom, ch => ch.y
  | EdgeKey.right, ch => ch.x
  | EdgeKey.left, ch => ch.x

/-- The child's own `getComputed(key)` value for the same edge key
(line 410). -/
def edgeComputed : EdgeKey → BBoxChild → ℚ
  | EdgeKey.top, ch => ch.top
  | EdgeKey.bottom, ch => ch.bottom
  | EdgeKey.right, ch => ch.right
  | EdgeKey.left, ch => ch.left

/-- Line 404: min for `top`/`left`, max for `right`/`bottom`. -/
def edgeCompare : EdgeKey → ℚ → ℚ → ℚ
  | EdgeKey.top => min
  | EdgeKey.left => min
  | EdgeKey.right => max
  | EdgeKey.bottom => max

/-- The body of the `tools.reduce` callback (lines 406-416): holes are
returned unchanged (the guard on line 407), the first non-hole child's
value replaces the initial accumulator (the `isFirst` flag in the closure),
later children are folded with min/max. -/
def edgeStep (k : EdgeKey) (acc : ℚ × Bool) (child? : Option BBoxChild) : ℚ × Bool :=
  match child? with
  | none => acc
  | some child =>
    let childValue := edgeAttr k child + edgeComputed k child
    if acc.2 then (childValue, false)
    else (edgeCompare k acc.1 childValue, false)

/-- The edge-key branch of the sparse mixin's `getComputed` (lines 399-416):
`tools.reduce` over the children with initial value 0 and `isFirst` set. -/
def getComputedEdge (children : List (Option BBoxChild)) (k : EdgeKey) : ℚ :=
  (children.foldl (edgeStep k) (0, true)).1

/-- The same call seen from the owner: line 400
(`this._children || (this._children = [])`) initializes a missing children
array to `[]`, so the call returns the computed value together with the
owner's resulting `_children` field. -/
def getComputedEdgeOwner (children? : Option (List (Option BBoxChild))) (k : EdgeKey) :
    ℚ × Option (List (Option BBoxChild)) :=
  let children := children?.getD []
  (getComputedEdge children k, some children)

/-- The edits the module performs on a children array, with holes
representable (`none` is a vacated slot): `spliceIn` is the splice of `add`
(lines 73 and 75), `spliceOut` the `splice(childIndex, 1)` of `remove`
(line 124), `emptyAll` the `children.length = 0` of `clear` (line 106), and
`deleteAt` the `delete children[index]` of the `keepIndexes` strategy in the
sparse mixin's `removeChild` (line 489) — code that sits after the module's
first `return` statement (lines 213-230) and is therefore never created. -/
inductive ChildArrayOp
  | spliceIn (i : Nat) (xs : List NodeId)
  | spliceOut (x : NodeId)
  | emptyAll
  | deleteAt (x : NodeId)

def applyOp (a : List (Option NodeId)) : ChildArrayOp → List (Option NodeId)
  | ChildArrayOp.spliceIn i xs => (a.take i ++ xs.map some) ++ a.drop i
  | ChildArrayOp.spliceOut x =>
    match a.findIdx? (fun s => s == some x) with
    | some i => a.eraseIdx i
    | none => a
  | ChildArrayOp.emptyAll => []
  | ChildArrayOp.deleteAt x =>
    match a.findIdx? (fun s => s == some x) with
    | some i => a.set i none
    | none => a

/-- The array edits reachable through the exported interface: the module
returns at line 213, before the sparse mixin defining the `keepIndexes`
strategy is created, so `deleteAt` is unreachable from the outside. -/
def reachableOp : ChildArrayOp → Bool
  | ChildArrayOp.deleteAt _ => false
  | _ => true

/-- A children array is dense when every slot holds a node. -/
def dense (a : List (Option NodeId)) : Bool :=
  a.all Option.isSome

lemma contains_true_of_mem {l : List NodeId} {a : NodeId} (h : a ∈ l) :
    l.contains a = true :=
  List.elem_iff.mpr h

lemma indexOfFirst_eq_none {l : List NodeId} {d : NodeId} (h : d ∉ l) :
    indexOfFirst l d = none := by
  induction l with
  | nil => rfl
  | cons c rest ih =>
    have hcd : c ≠ d := by rintro rfl; exact h (List.mem_cons_self _ _)
    have hd : d ∉ rest := fun hm => h (List.mem_cons_of_mem _ hm)
    simp [indexOfFirst, hcd, ih hd]

lemma indexOfFirst_append_cons {l1 : List NodeId} {d : NodeId} (l2 : List NodeId)
    (h : d ∉ l1) : indexOfFirst (l1 ++ d :: l2) d = some l1.length := by
  induction l1 with
  | nil => simp [indexOfFirst]
  | cons c rest ih =>
    have hcd : c ≠ d := by rintro rfl; exact h (List.mem_cons_self _ _)
    have hd : d ∉ rest := fun hm => h (List.mem_cons_of_mem _ hm)
    simp [indexOfFirst, hcd, ih hd]

lemma eraseIdx_append_cons (l1 l2 : List NodeId) (d : NodeId) :
    (l1 ++ d :: l2).eraseIdx l1.length = l1 ++ l2 := by
  induction l1 with
  | nil => rfl
  | cons c rest ih => simpa [List.eraseIdx] using ih

lemma getElem?_pred_append_cons {l1 : List NodeId} {d : NodeId} (l2 : List NodeId)
    (h : l1 ≠ []) : (l1 ++ d :: l2)[l1.length - 1]? = l1.getLast? := by
  have hlt : l1.length - 1 < l1.length := by
    cases l1 with
    | nil => exact absurd rfl h
    | cons a t => simp
  rw [List.getElem?_append_left hlt, List.getLast?_eq_getElem?]

/-- Full characterization of `remove` on a present child `b` (first
occurrence at position `l1.length`): the owner's children array loses that
occurrence, the removed node's `next` and `parent` are cleared and it is
deactivated, the predecessor (the last element of `l1`, when there is one)
is rewired to `b`'s former `next`, and every other field of every other node
is untouched. -/
lemma remove_spec (w : World) (o b : NodeId) (l1 l2 : List NodeId)
    (hc : w.children o = l1 ++ b :: l2) (hb : b ∉ l1) :
    (remove w o b).children = (fun m => if m = o then l1 ++ l2 else w.children m) ∧
    (remove w o b).next b = none ∧
    (remove w o b).parent b = none ∧
    (remove w o b).stage b = none ∧
    (remove w o b).registry b = false ∧
    (∀ n, n ≠ b → l1.getLast? = some n → (remove w o b).next n = w.next b) ∧
    (∀ n, n ≠ b → l1.getLast? ≠ some n → (remove w o b).next n = w.next n) ∧
    (∀ n, n ≠ b → (remove w o b).parent n = w.parent n ∧
        (remove w o b).stage n = w.stage n ∧
        (remove w o b).registry n = w.registry n) := by
  rcases eq_or_ne l1 [] with h1 | h1
  · subst h1
    have hidx0 : indexOfFirst (b :: l2) b = some 0 := by simp [indexOfFirst]
    simp only [List.nil_append] at hc
    refine ⟨?_, ?_, ?_, ?_, ?_, ?_, ?_, ?_⟩
    · funext m
      by_cases hm : m = o <;>
        simp [remove, hc, hidx0, hm, setNext, setParent, deactivateNode, List.eraseIdx]
    · simp [remove, hc, hidx0, setNext, setParent, deactivateNode]
    · simp [remove, hc, hidx0, setNext, setParent, deactivateNode]
    · simp [remove, hc, hidx0, setNext, setParent, deactivateNode]
    · simp [remove, hc, hidx0, setNext, setParent, deactivateNode]
    · intro n hn hlast
      simp at hlast
    · intro n hn _
      simp [remove, hc, hidx0, setNext, setParent, deactivateNode, hn]
    · intro n hn
      simp [remove, hc, hidx0, setNext, setParent, deactivateNode, hn]
  · have hpos : l1.length > 0 := by
      cases l1 with
      | nil => exact absurd rfl h1
      | cons a t => simp
    have hidx : indexOfFirst (l1 ++ b :: l2) b = some l1.length :=
      indexOfFirst_append_cons l2 hb
    obtain ⟨p, hp⟩ := List.getLast?_isSome.mpr h1 |> Option.isSome_iff_exists.mp
    have hprev : (l1 ++ b :: l2)[l1.length - 1]? = some p := by
      rw [getElem?_pred_append_cons l2 h1, hp]
    have hpne : p ≠ b := by
      rintro rfl
      exact hb (List.mem_of_mem_getLast? hp)
    refine ⟨?_, ?_, ?_, ?_, ?_, ?_, ?_, ?_⟩
    · funext m
      by_cases hm : m = o <;>
        simp [remove, hc, hidx, hpos, hprev, hm, setNext, setParent, deactivateNode,
          eraseIdx_append_cons]
    · simp [remove, hc, hidx, hpos, hprev, setNext, setParent, deactivateNode]
    · simp [remove, hc, hidx, hpos, hprev, setNext, setParent, deactivateNode]
    · simp [remove, hc, hidx, hpos, hprev, setNext, setParent, deactivateNode]
    · simp [remove, hc, hidx, hpos, hprev, setNext, setParent, deactivateNode]
    · intro n hn hlast
      have hnp : n = p := by rw [hp] at hlast; exact (Option.some_inj.mp hlast).symm
      subst hnp
      simp [remove, hc, hidx, hpos, hprev, setNext, setParent, deactivateNode, hn]
    · intro n hn hlast
      have hnp : n ≠ p := by rintro rfl; exact hlast hp
      simp [remove, hc, hidx, hpos, hprev, setNext, setParent, deactivateNode, hn, hnp]
    · intro n hn
      simp [remove, hc, hidx, hpos, hprev, setNext, setParent, deactivateNode, hn]

/-- One unfolding step of the `add` loop when the visited node is detached
(`parent` empty): the nested `remove` does not fire. -/
lemma addLoop_step (o : NodeId) (w : World) (i k : Nat) (nc : Option NodeId) (child : NodeId)
    (h : nc = some child ∨ (nc = none ∧ (w.children o)[i]? = some child))
    (hpar : w.parent child = none) :
    addLoop o w i nc (k + 1) =
      addLoop o (activateNode (setParent (setNext w child ((w.children o)[i + 1]?))
          child (some o)) child (w.stage o)) (i + 1) ((w.children o)[i + 1]?) k := by
  rcases h with h | ⟨h, hL⟩
  · subst h
    simp only [addLoop, hpar]
    rfl
  · subst h
    simp only [addLoop, hL, hpar]
    rfl

/-- One unfolding step of the `add` loop when the visited node currently has
a parent: that parent's display list `remove` fires first. -/
lemma addLoop_step_parented (o : NodeId) (w : World) (i k : Nat) (nc : Option NodeId)
    (child pp : NodeId)
    (h : nc = some child ∨ (nc = none ∧ (w.children o)[i]? = some child))
    (hpar : w.parent child = some pp) :
    addLoop o w i nc (k + 1) =
      addLoop o (activateNode (setParent (setNext (remove w pp child)
          child (((remove w pp child).children o)[i + 1]?)) child (some o))
        child ((remove w pp child).stage o)) (i + 1)
        (((remove w pp child).children o)[i + 1]?) k := by
  rcases h with h | ⟨h, hL⟩
  · subst h
    simp only [addLoop, hpar]
    rfl
  · subst h
    simp only [addLoop, hL, hpar]
    rfl

/-- Behavior of the `add` loop when none of the nodes it visits has a
parent: no nested `remove` fires, all children arrays are untouched, each
visited node's `next` is pointed at the following array slot, its `parent`
at the owner, and it is activated with the owner's stage; every other node
is untouched. -/
lemma addLoop_detached (o : NodeId) (L : List NodeId) :
    ∀ (k : Nat) (w : World) (i : Nat) (nc : Option NodeId),
      w.children o = L →
      i + k ≤ L.length →
      (∀ j c, i ≤ j → j < i + k → L[j]? = some c → w.parent c = none ∧ c ≠ o) →
      (∀ j j', i ≤ j → j < j' → j' < i + k → L[j]? ≠ L[j']?) →
      (nc = none ∨ nc = L[i]?) →
      (addLoop o w i nc k).children = w.children ∧
      (∀ j c, i ≤ j → j < i + k → L[j]? = some c →
          (addLoop o w i nc k).next c = L[j + 1]? ∧
          (addLoop o w i nc k).parent c = some o ∧
          (addLoop o w i nc k).stage c = w.stage o ∧
          (addLoop o w i nc k).registry c = (w.stage o).isSome) ∧
      (∀ n, (∀ j, i ≤ j → j < i + k → L[j]? ≠ some n) →
          (addLoop o w i nc k).next n = w.next n ∧
          (addLoop o w i nc k).parent n = w.parent n ∧
          (addLoop o w i nc k).stage n = w.stage n ∧
          (addLoop o w i nc k).registry n = w.registry n) := by
  intro k
  induction k with
  | zero =>
    intro w i nc _ _ _ _ _
    refine ⟨rfl, ?_, ?_⟩
    · intro j c hij hj _
      omega
    · intro n _
      exact ⟨rfl, rfl, rfl, rfl⟩
  | succ k ih =>
    intro w i nc hw hlen hpar hnd hnc
    have hi : i < L.length := by omega
    cases hLi : L[i]? with
    | none =>
      have := List.getElem?_eq_none_iff.mp hLi
      omega
    | some child =>
      obtain ⟨hpc, hco⟩ := hpar i child le_rfl (by omega) hLi
      have hstep : addLoop o w i nc (k + 1) =
          addLoop o
            (activateNode (setParent (setNext w child (L[i + 1]?)) child (some o))
              child (w.stage o))
            (i + 1) (L[i + 1]?) k := by
        have := addLoop_step o w i k nc child
          (by
            rcases hnc with h | h
            · exact Or.inr ⟨h, by rw [hw, hLi]⟩
            · exact Or.inl (h.trans hLi))
          hpc
        rw [this, hw]
      set w4 := activateNode (setParent (setNext w child (L[i + 1]?)) child (some o))
        child (w.stage o) with hw4
      have hseg_ne : ∀ j c, i + 1 ≤ j → j < i + 1 + k → L[j]? = some c → c ≠ child := by
        intro j c h1 h2 hj hcontra
        subst hcontra
        exact hnd i j le_rfl (by omega) (by omega) (hLi.trans hj.symm)
      have IH := ih w4 (i + 1) (L[i + 1]?)
        (by simpa [hw4] using hw)
        (by omega)
        (by
          intro j c h1 h2 hj
          have hne := hseg_ne j c h1 h2 hj
          obtain ⟨hp, ho⟩ := hpar j c (by omega) (by omega) hj
          refine ⟨?_, ho⟩
          simp [hw4, hne, hp])
        (by
          intro j j' h1 h2 h3
          exact hnd j j' (by omega) h2 (by omega))
        (Or.inr rfl)
      obtain ⟨IHch, IHseg, IHunch⟩ := IH
      rw [hstep]
      refine ⟨?_, ?_, ?_⟩
      · rw [IHch]
        simp [hw4]
      · intro j c hij hjk hj
        rcases eq_or_lt_of_le hij with heq | hlt
        · -- j = i: this is the node handled by this iteration
          have hLj : L[j]? = some child := heq ▸ hLi
          have hcc : c = child := Option.some_inj.mp (hj.symm.trans hLj)
          have hnotin : ∀ j', i + 1 ≤ j' → j' < i + 1 + k → L[j']? ≠ some c := by
            intro j' h1 h2 hj'
            exact hseg_ne j' c h1 h2 hj' hcc
          obtain ⟨hn, hp, hs, hr⟩ := IHunch c hnotin
          refine ⟨?_, ?_, ?_, ?_⟩
          · rw [hn]; simp [hw4, hcc, ← heq]
          · rw [hp]; simp [hw4, hcc]
          · rw [hs]; simp [hw4, hcc]
          · rw [hr]; simp [hw4, hcc]
        · -- j > i: handled by the remaining iterations
          have hj1 : i + 1 ≤ j := hlt
          obtain ⟨hn, hp, hs, hr⟩ := IHseg j c hj1 (by omega) hj
          have hstageo : w4.stage o = w.stage o := by
            simp [hw4, Ne.symm hco]
          refine ⟨hn, hp, ?_, ?_⟩
          · rw [hs, hstageo]
          · rw [hr, hstageo]
      · intro n hn
        have hnc' : n ≠ child := by
          intro hcontra
          exact hn i le_rfl (by omega) (by rw [hLi, hcontra])
        obtain ⟨h1, h2, h3, h4⟩ := IHunch n
          (fun j hj1 hj2 hj => hn j (by omega) (by omega) hj)
        refine ⟨?_, ?_, ?_, ?_⟩
        · rw [h1]; simp [hw4, hnc']
        · rw [h2]; simp [hw4, hnc']
        · rw [h3]; simp [hw4, hnc']
        · rw [h4]; simp [hw4, hnc']

lemma contains_false_of_not_mem {l : List NodeId} {a : NodeId} (h : a ∉ l) :
    l.contains a = false := by
  cases hc : l.contains a
  · rfl
  · exact absurd (List.elem_iff.mp hc) h

lemma resolveIdx_le (idx : Option ℚ) (len : Nat) : resolveIdx idx len ≤ len := by
  cases idx with
  | none => exact le_rfl
  | some q => exact min_le_right _ _

lemma nodup_getElem?_ne {l : List NodeId} (h : l.Nodup) {a b : Nat}
    (hab : a ≠ b) (ha : a < l.length) (hb : b < l.length) : l[a]? ≠ l[b]? := by
  rw [List.getElem?_eq_getElem ha, List.getElem?_eq_getElem hb]
  intro hcontra
  exact hab (h.getElem_inj_iff.mp (Option.some_inj.mp hcontra))

/-- Index lookup in a spliced list `take i ++ cs ++ drop i`. -/
lemma splice_getElem? (L0 cs : List NodeId) (i : Nat) (hi : i ≤ L0.length) :
    ((L0.take i ++ cs) ++ L0.drop i).length = L0.length + cs.length ∧
    (∀ j, j < i → ((L0.take i ++ cs) ++ L0.drop i)[j]? = L0[j]?) ∧
    (∀ j, i ≤ j → j < i + cs.length →
        ((L0.take i ++ cs) ++ L0.drop i)[j]? = cs[j - i]?) ∧
    (∀ j, i + cs.length ≤ j →
        ((L0.take i ++ cs) ++ L0.drop i)[j]? = L0[j - cs.length]?) := by
  have htake : (L0.take i).length = i := by
    rw [List.length_take]; exact min_eq_left hi
  refine ⟨?_, ?_, ?_, ?_⟩
  · simp [htake]
    omega
  · intro j hj
    rw [List.getElem?_append_left (by simp [htake]; omega),
        List.getElem?_append_left (by simp [htake]; omega),
        List.getElem?_take_of_lt hj]
  · intro j hij hj
    rw [List.getElem?_append_left (by simp [htake]; omega),
        List.getElem?_append_right (by simp [htake]; omega), htake]
  · intro j hj
    rw [List.getElem?_append_right (by simp [htake]; omega), List.getElem?_drop]
    have harith : i + (j - (L0.take i ++ cs).length) = j - cs.length := by
      simp [htake]
      omega
    rw [harith]

/-- Unfolding of `add` past its guards (lines 67-80): when no new child is
among the ancestors and the array is nonempty, `add` splices the array into
the owner's children at the resolved index, rewires the predecessor's `next`
to the first new node when the insertion point is positive, and enters the
per-child loop on the resulting intermediate world. -/
lemma add_unfold (w : World) (fuel : Nat) (o : NodeId) (cs : List NodeId) (idx : Option ℚ)
    (i : Nat) (L : List NodeId)
    (hi : i = resolveIdx idx (w.children o).length)
    (hL : L = ((w.children o).take i ++ cs) ++ (w.children o).drop i)
    (hne : cs ≠ [])
    (hguard : (cs.any fun c => (getAncestors w o fuel).contains c) = false) :
    ∃ w2 : World,
      add w fuel o (AddArg.arr cs) idx = addLoop o w2 i none cs.length ∧
      w2.children = (fun m => if m = o then L else w.children m) ∧
      w2.parent = w.parent ∧ w2.stage = w.stage ∧ w2.registry = w.registry ∧
      (∀ n, (i = 0 ∨ L[i - 1]? ≠ some n) → w2.next n = w.next n) ∧
      (∀ p first, 0 < i → L[i - 1]? = some p → cs.head? = some first →
          w2.next p = some first) := by
  have hiL : i ≤ (w.children o).length := hi ▸ resolveIdx_le idx (w.children o).length
  obtain ⟨hlen, _, _, _⟩ := splice_getElem? (w.children o) cs i hiL
  rw [← hL] at hlen
  rcases Nat.eq_zero_or_pos i with hi0 | hipos
  · refine ⟨{ w with children := fun m => if m = o then L else w.children m },
      ?_, rfl, rfl, rfl, rfl, fun n _ => rfl, fun p first hp => absurd hp (by omega)⟩
    simp only [add, hguard, Bool.false_eq_true, if_false]
    rw [if_neg (by simpa using hne), ← hi, ← hL, if_neg (by omega)]
  · obtain ⟨p, hp⟩ : ∃ p, L[i - 1]? = some p := by
      cases hLp : L[i - 1]? with
      | none =>
        have := List.getElem?_eq_none_iff.mp hLp
        have := List.length_pos.mpr hne
        omega
      | some p => exact ⟨p, rfl⟩
    obtain ⟨first, cs', hcs⟩ := List.exists_cons_of_ne_nil hne
    have hhead : cs.head? = some first := by rw [hcs]; rfl
    refine ⟨setNext { w with children := fun m => if m = o then L else w.children m }
      p (some first), ?_, rfl, rfl, rfl, rfl, ?_, ?_⟩
    · simp only [add, hguard, Bool.false_eq_true, if_false]
      rw [if_neg (by simpa using hne), ← hi, ← hL, if_pos hipos, hp, hhead]
    · intro n hn
      rcases hn with hn | hn
      · omega
      · have hnp : n ≠ p := fun hcontra => hn (hcontra ▸ hp)
        simp [hnp]
    · intro p' first' _ hp' hhead'
      obtain rfl : p' = p := Option.some_inj.mp (hp'.symm.trans hp)
      obtain rfl : first' = first := Option.some_inj.mp (hhead'.symm.trans hhead)
      simp

/-- Full characterization of `add` with an array of pairwise-distinct
detached nodes, none an ancestor of the owner: the array is spliced in at
the resolved index, each new node's `next` points at the following slot, its
`parent` at the owner, it is activated with the owner's stage, the
predecessor (when the insertion point is positive) is rewired to the first
new node, and nothing else changes. -/
lemma add_detached (w : World) (fuel : Nat) (o : NodeId) (cs : List NodeId) (idx : Option ℚ)
    (i : Nat) (L : List NodeId)
    (hi : i = resolveIdx idx (w.children o).length)
    (hL : L = ((w.children o).take i ++ cs) ++ (w.children o).drop i)
    (hne : cs ≠ [])
    (hanc : ∀ c ∈ cs, c ∉ getAncestors w o fuel)
    (hfuel : 0 < fuel)
    (hdet : ∀ c ∈ cs, w.parent c = none)
    (hnd : cs.Nodup) :
    (add w fuel o (AddArg.arr cs) idx).children =
      (fun m => if m = o then L else w.children m) ∧
    (∀ j c, i ≤ j → j < i + cs.length → L[j]? = some c →
        (add w fuel o (AddArg.arr cs) idx).next c = L[j + 1]? ∧
        (add w fuel o (AddArg.arr cs) idx).parent c = some o ∧
        (add w fuel o (AddArg.arr cs) idx).stage c = w.stage o ∧
        (add w fuel o (AddArg.arr cs) idx).registry c = (w.stage o).isSome) ∧
    (∀ n, n ∉ cs →
        (add w fuel o (AddArg.arr cs) idx).parent n = w.parent n ∧
        (add w fuel o (AddArg.arr cs) idx).stage n = w.stage n ∧
        (add w fuel o (AddArg.arr cs) idx).registry n = w.registry n) ∧
    (∀ n, n ∉ cs → (i = 0 ∨ L[i - 1]? ≠ some n) →
        (add w fuel o (AddArg.arr cs) idx).next n = w.next n) ∧
    (∀ p first, 0 < i → L[i - 1]? = some p → cs.head? = some first → p ∉ cs →
        (add w fuel o (AddArg.arr cs) idx).next p = some first) := by
  have hoanc : o ∈ getAncestors w o fuel := by
    cases fuel with
    | zero => exact absurd hfuel (by omega)
    | succ f => simp [getAncestors]
  have ho : o ∉ cs := fun hmem => hanc o hmem hoanc
  have hguard : (cs.any fun c => (getAncestors w o fuel).contains c) = false :=
    List.any_eq_false.mpr (fun c hc hcon => hanc c hc (List.elem_iff.mp hcon))
  have hiL : i ≤ (w.children o).length := hi ▸ resolveIdx_le idx (w.children o).length
  obtain ⟨hlen, hlow, hmid, hhigh⟩ := splice_getElem? (w.children o) cs i hiL
  rw [← hL] at hlen hlow hmid hhigh
  have hLlen : i + cs.length ≤ L.length := by omega
  obtain ⟨w2, hadd, hch2, hpar2, hst2, hreg2, hnx2, hnxp2⟩ :=
    add_unfold w fuel o cs idx i L hi hL hne hguard
  have hml := addLoop_detached o L cs.length w2 i none
    (by rw [congrFun hch2 o, if_pos rfl])
    hLlen
    (by
      intro j c h1 h2 hj
      have hcs : cs[j - i]? = some c := (hmid j h1 h2).symm.trans hj
      have hcmem : c ∈ cs := List.getElem?_mem hcs
      rw [congrFun hpar2 c]
      exact ⟨hdet c hcmem, fun hcontra => ho (hcontra ▸ hcmem)⟩)
    (by
      intro j j' h1 h2 h3
      rw [hmid j h1 (by omega), hmid j' (by omega) h3]
      have hjlen : j - i < cs.length := by omega
      have hjlen' : j' - i < cs.length := by omega
      exact nodup_getElem?_ne hnd (by omega) hjlen hjlen')
    (Or.inl rfl)
  obtain ⟨hmlch, hmlseg, hmlunch⟩ := hml
  have hnotseg : ∀ n, n ∉ cs → ∀ j, i ≤ j → j < i + cs.length → L[j]? ≠ some n := by
    intro n hn j h1 h2 hj
    have hcs : cs[j - i]? = some n := (hmid j h1 h2).symm.trans hj
    exact hn (List.getElem?_mem hcs)
  refine ⟨?_, ?_, ?_, ?_, ?_⟩
  · rw [hadd, hmlch, hch2]
  · intro j c h1 h2 hj
    obtain ⟨hn, hpp, hs, hr⟩ := hmlseg j c h1 h2 hj
    rw [hadd]
    refine ⟨hn, hpp, ?_, ?_⟩
    · rw [hs, congrFun hst2 o]
    · rw [hr, congrFun hst2 o]
  · intro n hn
    obtain ⟨_, h2, h3, h4⟩ := hmlunch n (hnotseg n hn)
    rw [hadd]
    exact ⟨h2.trans (congrFun hpar2 n), h3.trans (congrFun hst2 n),
      h4.trans (congrFun hreg2 n)⟩
  · intro n hn hcond
    obtain ⟨h1, _, _, _⟩ := hmlunch n (hnotseg n hn)
    rw [hadd, h1]
    exact hnx2 n hcond
  · intro p first hipos hp hhead hpcs
    obtain ⟨h1, _, _, _⟩ := hmlunch p (hnotseg p hpcs)
    rw [hadd, h1]
    exact hnxp2 p first hipos hp hhead

/-- C4: removing a direct child splices it out of the children array,
rewires the predecessor's `next` (when a predecessor exists) to the removed
node's former `next`, and clears the removed node's `parent` and `next`.
Specialized at children [a, b, c] this gives `remove(b)` = [a, c] with
`a.next == c` and `b.parent`, `b.next` cleared (see the witness). -/
theorem C4_remove_restores_links (w : World) (o b : NodeId) (l1 l2 : List NodeId)
    (hc : w.children o = l1 ++ b :: l2) (hb : b ∉ l1) :
    (remove w o b).children o = l1 ++ l2 ∧
    (remove w o b).parent b = none ∧
    (remove w o b).next b = none ∧
    (∀ p, l1.getLast? = some p → p ≠ b → (remove w o b).next p = w.next b) := by
  obtain ⟨hch, hnx, hpar, _, _, hrw, _, _⟩ := remove_spec w o b l1 l2 hc hb
  refine ⟨?_, hpar, hnx, ?_⟩
  · rw [congrFun hch o]; simp
  · intro p hp hpb
    exact hrw p hpb hp

theorem C4_witness :
    wABC.children 0 = [1] ++ 2 :: [3] ∧
    (remove wABC 0 2).children 0 = [1, 3] ∧
    (remove wABC 0 2).next 1 = some 3 ∧
    (remove wABC 0 2).parent 2 = none ∧
    (remove wABC 0 2).next 2 = none := by
  have h := C4_remove_restores_links wABC 0 2 [1] [3] rfl (by decide)
  exact ⟨rfl, h.1, (h.2.2.2 1 rfl (by decide)).trans rfl, h.2.1, h.2.2.1⟩

/-- C1: inserting zero items, inserting the owner itself or any node on the
owner's ancestor chain (as a single node or as an element of a bulk array),
and removing a non-child are silent no-ops: the result is exactly the input
world (children arrays, every node's parent/next/stage references and the
registry all unchanged), because the source returns before performing any
effect. -/
theorem C1_conflicts_are_noops (w : World) (fuel : Nat) (o : NodeId) (idx : Option ℚ) :
    (∀ c, c ∈ getAncestors w o fuel → add w fuel o (AddArg.single c) idx = w) ∧
    (∀ cs, (∃ c ∈ cs, c ∈ getAncestors w o fuel) → add w fuel o (AddArg.arr cs) idx = w) ∧
    add w fuel o (AddArg.arr []) idx = w ∧
    (∀ d, d ∉ w.children o → remove w o d = w) := by
  refine ⟨?_, ?_, ?_, ?_⟩
  · intro c hcin
    simp only [add]
    rw [if_pos (by simpa using contains_true_of_mem hcin)]
  · rintro cs ⟨c, hcs, hcin⟩
    simp only [add]
    rw [if_pos (by simpa using List.any_eq_true.mpr ⟨c, hcs, contains_true_of_mem hcin⟩)]
  · simp [add]
  · intro d hd
    simp [remove, indexOfFirst_eq_none hd]

theorem C1_witness :
    0 ∈ getAncestors wAB 0 2 ∧ add wAB 2 0 (AddArg.single 0) none = wAB ∧
    0 ∈ ([4, 0] : List NodeId) ∧
    add wAB 2 0 (AddArg.arr [4, 0]) none = wAB ∧
    add wAB 2 0 (AddArg.arr []) none = wAB ∧
    (4 : NodeId) ∉ wAB.children 0 ∧ remove wAB 0 4 = wAB := by
  have h := C1_conflicts_are_noops wAB 2 0 none
  exact ⟨by decide, h.1 0 (by decide), by decide,
    h.2.1 [4, 0] ⟨0, by decide, by decide⟩, h.2.2.1, by decide, h.2.2.2 4 (by decide)⟩

lemma linksConsistent_iff (w : World) (o : NodeId) :
    linksConsistent w o = true ↔
      ∀ j c, (w.children o)[j]? = some c → w.next c = (w.children o)[j + 1]? := by
  rw [linksConsistent, List.all_eq_true]
  constructor
  · intro h j c hj
    have hjlen : j < (w.children o).length := by
      by_contra hge
      rw [List.getElem?_eq_none_iff.mpr (by omega)] at hj
      exact absurd hj (by simp)
    have h2 : (w.next c == (w.children o)[j + 1]?) = true := by
      simpa [hj] using h j (List.mem_range.mpr hjlen)
    exact beq_iff_eq.mp h2
  · intro h j _
    cases hj : (w.children o)[j]? with
    | none => simp
    | some c => simp [h j c hj]

lemma add_single_eq_arr (w : World) (fuel : Nat) (o c : NodeId) (idx : Option ℚ) :
    add w fuel o (AddArg.single c) idx = add w fuel o (AddArg.arr [c]) idx := by
  simp [add]

/-- C2 counterexample: re-adding an existing child of the same list at a
smaller index is not order-preserving.  On children [a, b] (a = 1, b = 2),
`add(b, 0)` leaves the children array as [a, b] — node b is not moved to the
front — and sets `b.next` to b itself, so neither index order nor sibling
links match the claimed insertion. -/
theorem C2_counterexample :
    wAB.children 0 = [1, 2] ∧
    (add wAB 1 0 (AddArg.single 2) (some 0)).children 0 = [1, 2] ∧
    (add wAB 1 0 (AddArg.single 2) (some 0)).next 2 = some 2 ∧
    (add wAB 1 0 (AddArg.single 2) (some 0)).children 0 ≠ [2, 1] := by
  exact ⟨rfl, by decide, by decide, by decide⟩

/-- C2 (amended): on children [a, b, c] with detached x, y, `add([x, y], 1)`
yields [a, x, y, b, c] with sibling links matching index order; in general,
for any add of a nonempty array of pairwise-distinct detached nodes, none an
ancestor of the owner and none already a child of this owner, into a list
with consistent sibling links: the children by index become the old children
with the new nodes spliced in, in the order passed, at the resolved index,
and sibling links again mirror index order. -/
theorem C2_add_order_preservation (w : World) (fuel : Nat) (o : NodeId)
    (cs : List NodeId) (idx : Option ℚ)
    (hne : cs ≠ [])
    (hanc : ∀ c ∈ cs, c ∉ getAncestors w o fuel)
    (hfuel : 0 < fuel)
    (hdet : ∀ c ∈ cs, w.parent c = none)
    (hnd : cs.Nodup)
    (hdisj : ∀ c ∈ cs, c ∉ w.children o)
    (hnd0 : (w.children o).Nodup)
    (hlinks : linksConsistent w o = true) :
    (add w fuel o (AddArg.arr cs) idx).children o =
      ((w.children o).take (resolveIdx idx (w.children o).length) ++ cs) ++
        (w.children o).drop (resolveIdx idx (w.children o).length) ∧
    linksConsistent (add w fuel o (AddArg.arr cs) idx) o = true := by
  set i := resolveIdx idx (w.children o).length with hidef
  set L := ((w.children o).take i ++ cs) ++ (w.children o).drop i with hLdef
  have hiL : i ≤ (w.children o).length := resolveIdx_le idx (w.children o).length
  obtain ⟨hlen, hlow, hmid, hhigh⟩ := splice_getElem? (w.children o) cs i hiL
  rw [← hLdef] at hlen hlow hmid hhigh
  obtain ⟨hch, hseg, _, hunch, hprev⟩ :=
    add_detached w fuel o cs idx i L hidef hLdef hne hanc hfuel hdet hnd
  have hch' : (add w fuel o (AddArg.arr cs) idx).children o = L := by
    rw [congrFun hch o, if_pos rfl]
  have hlinks' := (linksConsistent_iff w o).mp hlinks
  refine ⟨hch', ?_⟩
  rw [linksConsistent_iff]
  intro j c hj
  rw [hch'] at hj ⊢
  have hjlen : j < L.length := by
    by_contra hge
    rw [List.getElem?_eq_none_iff.mpr (by omega)] at hj
    exact absurd hj (by simp)
  rcases lt_or_le j i with hji | hji
  · -- j in the untouched prefix
    have hjL0 : (w.children o)[j]? = some c := (hlow j hji).symm.trans hj
    have hcmem : c ∈ w.children o := List.getElem?_mem hjL0
    have hccs : c ∉ cs := fun hcontra => hdisj c hcontra hcmem
    rcases eq_or_lt_of_le (Nat.succ_le_of_lt hji) with hj1 | hj1
    · -- j + 1 = i: c is the predecessor being rewired to the first new node
      have hj1' : j + 1 = i := by omega
      obtain ⟨first, cs', hcs⟩ := List.exists_cons_of_ne_nil hne
      have hhead : cs.head? = some first := by rw [hcs]; rfl
      have hlt : i < i + cs.length := by
        rw [hcs]; simp only [List.length_cons]; omega
      have hpL : L[i - 1]? = some c := by
        rw [show i - 1 = j by omega]
        exact hj
      have hfirst : L[j + 1]? = some first := by
        rw [hj1', hmid i le_rfl hlt, Nat.sub_self, hcs]
        simp
      rw [hprev c first (by omega) hpL hhead hccs, hfirst]
    · -- j + 1 < i: c keeps its old link, which stays valid in the prefix
      have hcond : i = 0 ∨ L[i - 1]? ≠ some c := by
        right
        intro hcontra
        have hL0 : (w.children o)[i - 1]? = some c := by
          rw [← hlow (i - 1) (by omega)]
          exact hcontra
        exact nodup_getElem?_ne hnd0 (show j ≠ i - 1 by omega)
          (by omega) (by omega) (hjL0.trans hL0.symm)
      rw [hunch c hccs hcond, hlinks' j c hjL0, hlow (j + 1) (by omega)]
  rcases lt_or_le j (i + cs.length) with hji2 | hji2
  · -- j in the inserted segment
    exact (hseg j c hji hji2 hj).1
  · -- j in the shifted suffix
    have hjL0 : (w.children o)[j - cs.length]? = some c := (hhigh j hji2).symm.trans hj
    have hcmem : c ∈ w.children o := List.getElem?_mem hjL0
    have hccs : c ∉ cs := fun hcontra => hdisj c hcontra hcmem
    have hcond : i = 0 ∨ L[i - 1]? ≠ some c := by
      rcases Nat.eq_zero_or_pos i with h0 | hpos
      · exact Or.inl h0
      · right
        intro hcontra
        have hL0 : (w.children o)[i - 1]? = some c := by
          rw [← hlow (i - 1) (by omega)]
          exact hcontra
        have hjlt : j - cs.length < (w.children o).length := by
          by_contra hge
          rw [List.getElem?_eq_none_iff.mpr (by omega)] at hjL0
          exact absurd hjL0 (by simp)
        exact nodup_getElem?_ne hnd0 (show i - 1 ≠ j - cs.length by omega)
          (by omega) (by omega) (hL0.trans hjL0.symm)
    rw [hunch c hccs hcond, hlinks' (j - cs.length) c hjL0,
      hhigh (j + 1) (by omega)]
    congr 1
    omega

theorem C2_witness :
    ([4, 5] : List NodeId).Nodup ∧ linksConsistent wABC 0 = true ∧
    (add wABC 1 0 (AddArg.arr [4, 5]) (some 1)).children 0 = [1, 4, 5, 2, 3] ∧
    linksConsistent (add wABC 1 0 (AddArg.arr [4, 5]) (some 1)) 0 = true := by
  have h := C2_add_order_preservation wABC 1 0 [4, 5] (some 1) (by decide)
    (by decide) (by decide) (by decide) (by decide) (by decide) (by decide) (by decide)
  exact ⟨by decide, by decide, h.1.trans (by decide), h.2⟩

/-- C3: reparent atomicity.  If B is a child of A (appearing exactly once in
A's children, with B's parent reference pointing at A and B in no other
children array) and `add(B)` is called under a different owner C whose
ancestor chain does not contain B, then afterwards B is absent from A's
children, present exactly once in C's children, `B.parent == C`, and B is in
no children array other than C's — so in the final state no node has two
parents or sits in two children containers. -/
theorem C3_reparent_atomicity (w : World) (fuel : Nat) (a c b : NodeId) (idx : Option ℚ)
    (la1 la2 : List NodeId)
    (hanc : b ∉ getAncestors w c fuel)
    (hpar : w.parent b = some a)
    (hA : w.children a = la1 ++ b :: la2)
    (hb1 : b ∉ la1) (hb2 : b ∉ la2)
    (honly : ∀ x, x ≠ a → b ∉ w.children x)
    (hac : a ≠ c) :
    (add w fuel c (AddArg.single b) idx).children a = la1 ++ la2 ∧
    b ∉ (add w fuel c (AddArg.single b) idx).children a ∧
    ((add w fuel c (AddArg.single b) idx).children c).count b = 1 ∧
    (add w fuel c (AddArg.single b) idx).parent b = some c ∧
    (∀ x, x ≠ c → b ∉ (add w fuel c (AddArg.single b) idx).children x) := by
  have hguard : ([b].any fun x => (getAncestors w c fuel).contains x) = false := by
    simpa using hanc
  set i := resolveIdx idx (w.children c).length with hidef
  set newList := ((w.children c).take i ++ [b]) ++ (w.children c).drop i with hNdef
  have hiL : i ≤ (w.children c).length := resolveIdx_le idx (w.children c).length
  obtain ⟨hlen, hlow, hmid, hhigh⟩ := splice_getElem? (w.children c) [b] i hiL
  rw [← hNdef] at hlen hlow hmid hhigh
  have hNi : newList[i]? = some b := by
    have h := hmid i le_rfl (by simp)
    simpa using h
  rw [add_single_eq_arr]
  obtain ⟨w2, hadd, hch2, hpar2, hst2, hreg2, _, _⟩ :=
    add_unfold w fuel c [b] idx i newList hidef hNdef (by simp) hguard
  have hpb2 : w2.parent b = some a := by rw [hpar2]; exact hpar
  have hstep := addLoop_step_parented c w2 i 0 none b a
    (Or.inr ⟨rfl, by rw [congrFun hch2 c, if_pos rfl]; exact hNi⟩) hpb2
  have hA2 : w2.children a = la1 ++ b :: la2 := by
    rw [congrFun hch2 a, if_neg hac]; exact hA
  obtain ⟨hrch, _, _, _, _, _, _, _⟩ := remove_spec w2 a b la1 la2 hA2 hb1
  have hfin : add w fuel c (AddArg.arr [b]) idx =
      activateNode (setParent (setNext (remove w2 a b) b
          (((remove w2 a b).children c)[i + 1]?)) b (some c))
        b ((remove w2 a b).stage c) := by
    rw [hadd]
    show addLoop c w2 i none (0 + 1) = _
    rw [hstep]
    rfl
  have hrc : (remove w2 a b).children c = newList := by
    rw [congrFun hrch c, if_neg (Ne.symm hac), congrFun hch2 c, if_pos rfl]
  have hbc : b ∉ w.children c := honly c (Ne.symm hac)
  refine ⟨?_, ?_, ?_, ?_, ?_⟩
  · rw [hfin]
    show (remove w2 a b).children a = la1 ++ la2
    rw [congrFun hrch a, if_pos rfl]
  · rw [hfin]
    show b ∉ (remove w2 a b).children a
    rw [congrFun hrch a, if_pos rfl]
    simp [hb1, hb2]
  · rw [hfin]
    show ((remove w2 a b).children c).count b = 1
    rw [hrc, hNdef]
    have h1 : List.count b ((w.children c).take i) = 0 :=
      List.count_eq_zero_of_not_mem (fun hm => hbc (List.mem_of_mem_take hm))
    have h2 : List.count b ((w.children c).drop i) = 0 :=
      List.count_eq_zero_of_not_mem (fun hm => hbc (List.mem_of_mem_drop hm))
    simp [List.count_append, h1, h2]
  · rw [hfin]
    simp
  · intro x hx
    rw [hfin]
    show b ∉ (remove w2 a b).children x
    rcases eq_or_ne x a with rfl | hxa
    · rw [congrFun hrch x, if_pos rfl]
      simp [hb1, hb2]
    · rw [congrFun hrch x, if_neg hxa, congrFun hch2 x, if_neg hx]
      exact honly x hxa

theorem C3_witness :
    wTwo.parent 1 = some 0 ∧ wTwo.children 0 = [] ++ 1 :: [] ∧
    (add wTwo 1 2 (AddArg.single 1) none).children 0 = [] ∧
    ((add wTwo 1 2 (AddArg.single 1) none).children 2).count 1 = 1 ∧
    (add wTwo 1 2 (AddArg.single 1) none).parent 1 = some 2 ∧
    1 ∉ (add wTwo 1 2 (AddArg.single 1) none).children 5 := by
  have h := C3_reparent_atomicity wTwo 1 0 2 1 none [] [] (by decide) rfl rfl
    (by decide) (by decide) (by intro x hx; simp [wTwo, hx]) (by decide)
  exact ⟨rfl, rfl, h.1, h.2.2.1, h.2.2.2.1, h.2.2.2.2 5 (by decide)⟩

lemma clear_fold (l : List NodeId) :
    ∀ (w : World),
      (l.foldl (fun w c => setNext (setParent (deactivateNode w c) c none) c none) w) =
      { parent := fun n => if n ∈ l then none else w.parent n,
        next := fun n => if n ∈ l then none else w.next n,
        stage := fun n => if n ∈ l then none else w.stage n,
        children := w.children,
        registry := fun n => if n ∈ l then false else w.registry n } := by
  induction l with
  | nil =>
    intro w
    refine World.ext ?_ ?_ ?_ ?_ ?_ <;> funext n <;> simp
  | cons c rest ih =>
    intro w
    rw [List.foldl_cons, ih]
    refine World.ext ?_ ?_ ?_ ?_ ?_ <;> funext n <;>
      by_cases hn : n = c <;> by_cases hr : n ∈ rest <;>
        simp [setNext, setParent, deactivateNode, hn, hr]

lemma clear_eq (w : World) (o : NodeId) : clear w o = clearedWorld w o := by
  simp only [clear, clear_fold]
  refine World.ext rfl rfl rfl ?_ rfl
  rfl

lemma removeEach_eq (o : NodeId) :
    ∀ (l : List NodeId) (w : World), l.Perm (w.children o) → (w.children o).Nodup →
      removeEach w o l = clearedWorld w o := by
  intro l
  induction l with
  | nil =>
    intro w hperm hnd
    have hch : w.children o = [] := hperm.symm.eq_nil
    show w = clearedWorld w o
    refine World.ext ?_ ?_ ?_ ?_ ?_ <;> funext n
    · simp [clearedWorld, hch]
    · simp [clearedWorld, hch]
    · simp [clearedWorld, hch]
    · by_cases hn : n = o
      · subst hn; simp [clearedWorld, hch]
      · simp [clearedWorld, hn]
    · simp [clearedWorld, hch]
  | cons c rest ih =>
    intro w hperm hnd
    have hcmem : c ∈ w.children o := hperm.subset (List.mem_cons_self c rest)
    obtain ⟨l1, l2, hdecomp⟩ := List.append_of_mem hcmem
    have hnd' : (l1 ++ c :: l2).Nodup := hdecomp ▸ hnd
    obtain ⟨hnd1, hnd2, hdisj⟩ := List.nodup_append.mp hnd'
    have hc1 : c ∉ l1 := fun hm => hdisj hm (List.mem_cons_self c l2)
    have hc2 : c ∉ l2 := (List.nodup_cons.mp hnd2).1
    obtain ⟨hrch, hrn, hrp, hrs, hrr, hrwy, hrwn, hroth⟩ :=
      remove_spec w o c l1 l2 hdecomp hc1
    have hch' : (remove w o c).children o = l1 ++ l2 := by
      rw [congrFun hrch o, if_pos rfl]
    have hperm' : rest.Perm ((remove w o c).children o) := by
      rw [hch']
      have h1 : (c :: rest).Perm (c :: (l1 ++ l2)) :=
        (hdecomp ▸ hperm).trans List.perm_middle
      exact (List.perm_cons c).mp h1
    have hnd'' : ((remove w o c).children o).Nodup := by
      rw [hch']
      exact ((List.sublist_cons_self c l2).append_left l1).nodup hnd'
    have ihres := ih (remove w o c) hperm' hnd''
    have hmem_iff : ∀ n, n ∈ w.children o ↔ (n ∈ l1 ++ l2 ∨ n = c) := by
      intro n
      rw [hdecomp]
      simp [List.mem_append, List.mem_cons]
      tauto
    have hfinal : clearedWorld (remove w o c) o = clearedWorld w o := by
      refine World.ext ?_ ?_ ?_ ?_ ?_ <;> funext n
      · show (if n ∈ (remove w o c).children o then none else (remove w o c).parent n) =
          (if n ∈ w.children o then none else w.parent n)
        rw [hch']
        by_cases h12 : n ∈ l1 ++ l2
        · rw [if_pos h12, if_pos ((hmem_iff n).mpr (Or.inl h12))]
        · rcases eq_or_ne n c with rfl | hnc
          · rw [if_neg h12, if_pos hcmem, hrp]
          · rw [if_neg h12, if_neg (fun hm => by
              rcases (hmem_iff n).mp hm with h | h
              · exact h12 h
              · exact hnc h), (hroth n hnc).1]
      · show (if n ∈ (remove w o c).children o then none else (remove w o c).next n) =
          (if n ∈ w.children o then none else w.next n)
        rw [hch']
        by_cases h12 : n ∈ l1 ++ l2
        · rw [if_pos h12, if_pos ((hmem_iff n).mpr (Or.inl h12))]
        · rcases eq_or_ne n c with rfl | hnc
          · rw [if_neg h12, if_pos hcmem, hrn]
          · have hnmem : n ∉ w.children o := fun hm => by
              rcases (hmem_iff n).mp hm with h | h
              · exact h12 h
              · exact hnc h
            have hlast : l1.getLast? ≠ some n := fun hl =>
              hnmem ((hmem_iff n).mpr (Or.inl
                (List.mem_append.mpr (Or.inl (List.mem_of_mem_getLast? hl)))))
            rw [if_neg h12, if_neg hnmem, hrwn n hnc hlast]
      · show (if n ∈ (remove w o c).children o then none else (remove w o c).stage n) =
          (if n ∈ w.children o then none else w.stage n)
        rw [hch']
        by_cases h12 : n ∈ l1 ++ l2
        · rw [if_pos h12, if_pos ((hmem_iff n).mpr (Or.inl h12))]
        · rcases eq_or_ne n c with rfl | hnc
          · rw [if_neg h12, if_pos hcmem, hrs]
          · rw [if_neg h12, if_neg (fun hm => by
              rcases (hmem_iff n).mp hm with h | h
              · exact h12 h
              · exact hnc h), (hroth n hnc).2.1]
      · show (if n = o then [] else (remove w o c).children n) =
          (if n = o then [] else w.children n)
        rcases eq_or_ne n o with rfl | hmo
        · simp
        · rw [if_neg hmo, if_neg hmo, congrFun hrch n, if_neg hmo]
      · show (if n ∈ (remove w o c).children o then false else (remove w o c).registry n) =
          (if n ∈ w.children o then false else w.registry n)
        rw [hch']
        by_cases h12 : n ∈ l1 ++ l2
        · rw [if_pos h12, if_pos ((hmem_iff n).mpr (Or.inl h12))]
        · rcases eq_or_ne n c with rfl | hnc
          · rw [if_neg h12, if_pos hcmem, hrr]
          · rw [if_neg h12, if_neg (fun hm => by
              rcases (hmem_iff n).mp hm with h | h
              · exact h12 h
              · exact hnc h), (hroth n hnc).2.2]
    calc removeEach w o (c :: rest)
        = removeEach (remove w o c) o rest := by
          simp only [removeEach, List.foldl_cons]
      _ = clearedWorld (remove w o c) o := ihres
      _ = clearedWorld w o := hfinal

/-- C5: `clear()` on a display list with pairwise-distinct children produces
exactly the same final world — empty children array, every former child with
`parent`, `next` and `stage` cleared and deactivated out of the registry —
as calling `remove` on each of the children individually, in any order. -/
theorem C5_clear_equals_sequential_remove (w : World) (o : NodeId) (l : List NodeId)
    (hnd : (w.children o).Nodup) (hperm : l.Perm (w.children o)) :
    removeEach w o l = clear w o :=
  (removeEach_eq o l w hperm hnd).trans (clear_eq w o).symm

theorem C5_witness :
    (wABC.children 0).Nodup ∧ List.Perm [2, 1, 3] (wABC.children 0) ∧
    removeEach wABC 0 [2, 1, 3] = clear wABC 0 :=
  ⟨by decide, by decide,
    C5_clear_equals_sequential_remove wABC 0 [2, 1, 3] (by decide) (by decide)⟩

/-- C6 counterexample: an explicitly passed index of -1 on a one-element
list does not insert at position 0 as the claim's clamping would require; it
appends, because `-1 >>> 0` is 4294967295, which is then clamped to the
length. -/
theorem C6_counterexample :
    wA.children 0 = [1] ∧
    (add wA 1 0 (AddArg.single 2) (some (-1))).children 0 = [1, 2] ∧
    (add wA 1 0 (AddArg.single 2) (some (-1))).children 0 ≠ [2, 1] := by
  exact ⟨rfl, by decide, by decide⟩

/-- C6 (amended): an explicitly passed insertion index i is first converted
with ToUint32 (`i >>> 0`: truncation toward zero, then reduction mod 2^32)
and the result is clamped above by the current length, so `add` inserts at
`min(ToUint32 i, L)`.  Fractional indices truncate and indices above L (up
to 2^32 - 1) append at L, but indices below 0 do not insert at position 0 —
they wrap to huge values and hence append — and indices of 2^32 and beyond
wrap around. -/
theorem C6_add_index_resolution (w : World) (fuel : Nat) (o c : NodeId) (q : ℚ)
    (hanc : c ∉ getAncestors w o fuel)
    (hfuel : 0 < fuel)
    (hdet : w.parent c = none) :
    (add w fuel o (AddArg.single c) (some q)).children o =
      (w.children o).take (min (toUint32 q) (w.children o).length) ++
        c :: (w.children o).drop (min (toUint32 q) (w.children o).length) := by
  rw [add_single_eq_arr]
  have h := add_detached w fuel o [c] (some q)
    (resolveIdx (some q) (w.children o).length) _ rfl rfl (by simp)
    (by simpa using hanc) hfuel (by simpa using hdet) (by simp)
  rw [congrFun h.1 o, if_pos rfl]
  simp [resolveIdx]

theorem C6_witness :
    (3 : NodeId) ∉ getAncestors wAB 0 1 ∧ wAB.parent 3 = none ∧
    toUint32 (3 / 2) = 1 ∧
    (add wAB 1 0 (AddArg.single 3) (some (3 / 2))).children 0 = [1, 3, 2] := by
  have hq : ((3 : ℚ) / 2).num = 3 := by norm_num
  have hd : ((3 : ℚ) / 2).den = 2 := by norm_num
  have ht : toUint32 (3 / 2) = 1 := by
    simp only [toUint32, jsTrunc]
    rw [hq, hd]
    decide
  have h := C6_add_index_resolution wAB 1 0 3 (3 / 2) (by decide) (by decide) (by decide)
  exact ⟨by decide, by decide, ht, h.trans (by rw [ht]; decide)⟩

/-- C7: evaluation of the mixin surface at a concrete owner.  `addChild`,
`clear` and the no-argument `children()` do what the claim says (mutate via
the display list, return the owner, return data); but `removeChild` and
`getIndexOfChild` raise TypeErrors instead of delegating, because
`DisplayList.prototype` defines `remove` — not `removeChild` — and defines
no `getIndexOfChild` at all.  This records the code bug the claim trips
over. -/
theorem C7_mixin_delegation_bug :
    methodsAddChild wABC 1 0 (AddArg.single 4) none =
      (add wABC 1 0 (AddArg.single 4) none, 0) ∧
    methodsClear wABC 0 = (clear wABC 0, 0) ∧
    methodsChildrenGet wABC 0 = [1, 2, 3] ∧
    methodsRemoveChild wABC 0 1 = Except.error (JsError.typeError
      "this.displayList.removeChild is not a function") ∧
    methodsGetIndexOfChild wABC 0 = Except.error (JsError.typeError
      "this.displayList.getIndexOfChild is not a function") :=
  ⟨rfl, rfl, rfl, rfl, rfl⟩

/-- C8: the unimplemented-capability signal exists as claimed — the default
`getComputed` throws the distinct string 'implement me' for every key — but
it is not the only explicit failure of the mixin surface: `removeChild`
also raises (a TypeError, from delegating to a method missing on
`DisplayList.prototype`).  This records the code bug that falsifies the
uniqueness clause. -/
theorem C8_getComputed_not_only_failure :
    (∀ key, methodsGetComputed key = Except.error (JsError.thrown "implement me")) ∧
    methodsRemoveChild wABC 0 2 = Except.error (JsError.typeError
      "this.displayList.removeChild is not a function") :=
  ⟨fun _ => rfl, rfl⟩

lemma getComputedEdge_fold (k : EdgeKey) :
    ∀ (l : List (Option BBoxChild)) (a : ℚ),
      l.foldl (edgeStep k) (a, false) =
      (((l.filterMap id).map (fun ch => edgeAttr k ch + edgeComputed k ch)).foldl
        (edgeCompare k) a, false) := by
  intro l
  induction l with
  | nil => intro a; rfl
  | cons c? l ih =>
    intro a
    cases c? with
    | none => simp [List.foldl_cons, edgeStep, ih]
    | some ch => simp [List.foldl_cons, edgeStep, ih]

/-- C9 counterexample to the "mutates no state" clause: on an owner whose
`_children` field is absent, `getComputed` executes
`this._children = []` (line 400), so the owner's state changes from having
no children field to having an empty one. -/
theorem C9_counterexample :
    (getComputedEdgeOwner none EdgeKey.left).2 = some [] ∧
    (getComputedEdgeOwner none EdgeKey.left).2 ≠ none :=
  ⟨rfl, by simp [getComputedEdgeOwner]⟩

/-- C9 (amended): for every edge key, `getComputed` returns the fold of min
(for top, left) or max (for right, bottom) over all non-hole children of the
child's position along that axis plus the child's own computed value for
that key, and returns 0 when there are no (non-hole) children; the children
array contents are unchanged, and the only state change is the lazy
initialization of an absent `_children` field to the empty array.  On the
three children {x 0, right 10}, {x 20, right 5}, {x -5, right 3} (left
edges 0) this yields left = -5 and right = 25. -/
theorem C9_getComputed_edge_extremum :
    (∀ (children : List (Option BBoxChild)) (k : EdgeKey),
      getComputedEdgeOwner (some children) k =
        (match (children.filterMap id).map
            (fun ch => edgeAttr k ch + edgeComputed k ch) with
          | [] => 0
          | v :: vs => vs.foldl (edgeCompare k) v,
         some children)) ∧
    (∀ k, getComputedEdgeOwner none k = (0, some [])) ∧
    getComputedEdge [some ⟨0, 0, 0, 10, 0, 0⟩, some ⟨20, 0, 0, 5, 0, 0⟩,
        some ⟨-5, 0, 0, 3, 0, 0⟩] EdgeKey.left = -5 ∧
    getComputedEdge [some ⟨0, 0, 0, 10, 0, 0⟩, some ⟨20, 0, 0, 5, 0, 0⟩,
        some ⟨-5, 0, 0, 3, 0, 0⟩] EdgeKey.right = 25 := by
  have hmain : ∀ (children : List (Option BBoxChild)) (k : EdgeKey),
      getComputedEdge children k =
        (match (children.filterMap id).map
            (fun ch => edgeAttr k ch + edgeComputed k ch) with
          | [] => 0
          | v :: vs => vs.foldl (edgeCompare k) v) := by
    intro children k
    induction children with
    | nil => rfl
    | cons c? l ih =>
      cases c? with
      | none =>
        have h1 : getComputedEdge (none :: l) k = getComputedEdge l k := rfl
        rw [h1, ih]
        simp
      | some ch =>
        have h1 : getComputedEdge (some ch :: l) k =
            (List.foldl (edgeStep k) (edgeAttr k ch + edgeComputed k ch, false) l).1 :=
          rfl
        rw [h1, getComputedEdge_fold k l]
        simp
  refine ⟨?_, ?_, ?_, ?_⟩
  · intro children k
    show (getComputedEdge children k, some children) = _
    rw [hmain children k]
  · intro k
    rfl
  · norm_num [getComputedEdge, edgeStep, edgeAttr, edgeComputed, edgeCompare,
      List.foldl]
  · norm_num [getComputedEdge, edgeStep, edgeAttr, edgeComputed, edgeCompare,
      List.foldl]

/-- C10: every sequence of children-array edits reachable through the
exported interface — the splices of `add` and `remove` and the emptying of
`clear` — keeps the children array dense (no slot ever holds a hole) from
any dense start; the hole-creating `deleteAt` (the sparse mixin's
`keepIndexes` removal strategy) is excluded as unreachable, the module
having returned before that mixin is defined. -/
theorem C10_exported_ops_keep_dense (ops : List ChildArrayOp)
    (h : ∀ op ∈ ops, reachableOp op = true) :
    dense (ops.foldl applyOp []) = true := by
  have hgen : ∀ (ops : List ChildArrayOp), (∀ op ∈ ops, reachableOp op = true) →
      ∀ (a : List (Option NodeId)), dense a = true →
        dense (ops.foldl applyOp a) = true := by
    intro ops
    induction ops with
    | nil => intro _ a ha; exact ha
    | cons op ops ih =>
      intro hall a ha
      rw [List.foldl_cons]
      refine ih (fun op' hop' => hall op' (List.mem_cons_of_mem _ hop')) _ ?_
      have hop := hall op (List.mem_cons_self _ _)
      cases op with
      | spliceIn i xs =>
        rw [dense, List.all_eq_true] at ha ⊢
        intro s hs
        rcases List.mem_append.mp hs with hs | hs
        · rcases List.mem_append.mp hs with hs | hs
          · exact ha s (List.mem_of_mem_take hs)
          · obtain ⟨x, _, rfl⟩ := List.mem_map.mp hs
            rfl
        · exact ha s (List.mem_of_mem_drop hs)
      | spliceOut x =>
        rw [dense, List.all_eq_true] at ha ⊢
        intro s hs
        rw [applyOp] at hs
        cases hidx : a.findIdx? (fun s => s == some x) with
        | none =>
          rw [hidx] at hs
          exact ha s hs
        | some i =>
          rw [hidx] at hs
          exact ha s ((a.eraseIdx_sublist i).subset hs)
      | emptyAll => rfl
      | deleteAt x => exact absurd hop (by simp [reachableOp])
  exact hgen ops h [] rfl

theorem C10_witness :
    ([ChildArrayOp.spliceIn 0 [1, 2], ChildArrayOp.spliceOut 1,
        ChildArrayOp.spliceIn 1 [3], ChildArrayOp.emptyAll,
        ChildArrayOp.spliceIn 0 [4]]).all reachableOp = true ∧
    dense (([ChildArrayOp.spliceIn 0 [1, 2], ChildArrayOp.spliceOut 1,
        ChildArrayOp.spliceIn 1 [3], ChildArrayOp.emptyAll,
        ChildArrayOp.spliceIn 0 [4]]).foldl applyOp []) = true :=
  ⟨by decide, C10_exported_ops_keep_dense _ (by decide)⟩

end Bonsai
